import Mathlib

/-!
Verification of the tlspuffin protocol-fuzzer core against its natural-language
specification. The Rust sources are shallowly embedded into Lean:

* `puffin/src/algebra/term.rs` — the typed term algebra (`Term`, `evaluate`,
  the post-order iterator, `size`, `remove_prefix`);
* `puffin/src/algebra/mod.rs` — the process-wide signature anchor
  (`set_current_signature` over a `OnceCell`);
* `puffin/src/fuzzer/term_zoo.rs` — the term-zoo generator;
* `puffin/src/fuzzer/harness.rs` — the fuzzing harness error dispatch;
* `src/term/type_helper.rs` (the older in-repo crate) — `make_dynamic` and the
  serde instances for `TypeShape` and `Box<dyn DynamicFunction>`;
* `tlspuffin/src/tls/rustls/msgs/base.rs` — the `PayloadU8` codec.

Machine integers are modelled as `Nat` with explicit `% 256` where the source
truncates (`as u8`); byte buffers are `List Nat`; Rust strings are `List Char`;
fallible operations return `Option` or `Except`; a Rust panic is modelled by an
explicit constructor or by `Option.none`, as noted at each definition.
-/

namespace TlsPuffin

/-- Model of `puffin::algebra::dynamic_function::TypeShape`: an opaque runtime
type identity (Rust `TypeId`, modelled as `Nat`) together with a readable name.
The claims below never rely on the name for equality. -/
structure TypeShape where
  inner_type_id : Nat
  name : String
deriving DecidableEq, Repr

/-- Agent names (`puffin::agent::AgentName`) are opaque identifiers. -/
abbrev AgentName := Nat

/-- Model of `puffin::trace::Source`. Its definition is not under `src/`; the
variants are fixed by the use in `Term::evaluate`
(`if let Some(Source::Agent(agent_name)) = variable.query.source` with the
comment that claims do not have precomputations as source): an `Agent` variant
and a non-agent variant for precomputation labels. -/
inductive Source where
  | Agent (name : AgentName)
  | Label (label : String)
deriving DecidableEq, Repr

/-- Model of `puffin::trace::Query` as used by `Term::evaluate`: an optional
source, an occurrence counter and an opaque protocol matcher (modelled as a
`Nat` option; `evaluate` never inspects it directly). -/
structure Query where
  source : Option Source
  matcher : Option Nat
  counter : Nat
deriving DecidableEq, Repr

/-- Model of `puffin::algebra::atoms::Variable`: declared type shape, query and
resistant identifier. -/
structure Variable where
  resistant_id : Nat
  typ : TypeShape
  query : Query
deriving DecidableEq, Repr

/-- Evaluated protocol values (`Box<dyn EvaluatedTerm>`): the embedding fixes
one opaque carrier for the erased trait objects. -/
abbrev Value := Nat

/-- Model of `puffin::algebra::error::FnError` (the file itself is not under
`src/`; the spec fixes the variants `Malformed | Crypto | Unknown | Impl`). -/
inductive FnError where
  | Malformed (msg : String)
  | Crypto (msg : String)
  | Unknown (msg : String)
  | Impl (msg : String)
deriving DecidableEq, Repr

/-- Model of `puffin::error::Error`. The enum declaration is not under `src/`,
but the exhaustive match in `puffin/src/fuzzer/harness.rs` fixes exactly these
eight variants. `Io` stands for the source's IO variant. -/
inductive Error where
  | Fn (e : FnError)
  | Term (msg : String)
  | Put (msg : String)
  | Io (msg : String)
  | Agent (msg : String)
  | Stream (msg : String)
  | Extraction
  | SecurityClaim (msg : String)
deriving DecidableEq, Repr

/-- Model of `puffin::algebra::dynamic_function::DynamicFunctionShape`: name,
ordered argument type shapes and return type shape. -/
structure DynamicFunctionShape where
  name : String
  argument_types : List TypeShape
  return_type : TypeShape
deriving DecidableEq, Repr

/-- Model of `puffin::algebra::atoms::Function`: a shape paired with the erased
dynamic function. The dynamic function has the newer crate's contract
`&Vec<Box<dyn EvaluatedTerm>> -> Result<Box<dyn EvaluatedTerm>, FnError>`
(see the type ascription in `Term::evaluate`). -/
structure Function where
  shape : DynamicFunctionShape
  dynamic_fn : List Value → Except FnError Value

/-- Constructor used by the term zoo (`Function::new(shape, dynamic_fn)`). -/
def Function.new (shape : DynamicFunctionShape)
    (dynamic_fn : List Value → Except FnError Value) : Function :=
  ⟨shape, dynamic_fn⟩

/-- Model of `puffin::algebra::term::Term`: a variable or an application of a
function symbol to sub-terms. -/
inductive Term where
  | Variable (v : Variable)
  | Application (func : Function) (args : List Term)

/-- Model of the trace context as `Term::evaluate` consumes it: the knowledge
base lookup `find_variable(type shape, query)` and the claim-store lookup
`find_claim(agent, type shape)`. Both live in `puffin/src/trace.rs`, which is
not under `src/`; `evaluate` treats them as opaque lookups, and so does the
embedding. -/
structure TraceContext where
  find_variable : TypeShape → Query → Option Value
  find_claim : AgentName → TypeShape → Option Value

/-- Model of `VariableData::boxed_term` (a boxed clone of the found datum); on
the fixed carrier the clone is the value itself. -/
def boxedTerm (v : Value) : Value := v

/-- Display of a `Variable` (its `Display` impl lives in `atoms.rs`, not under
`src/`): only the fixed message text around it is claim-relevant, so the
variable is rendered by its type name. -/
def variableDisplay (v : Variable) : String := v.typ.name

mutual

/-- Model of `Term::evaluate` (`puffin/src/algebra/term.rs:105-141`).
A `Variable` queries `find_variable`, falls back to `find_claim` when the
query's source is an agent, and otherwise fails with the
`Unable to find variable` error. An `Application` evaluates its sub-terms
left-to-right (via `evaluateArgs`, mirroring the source's loop) and then
invokes the dynamic function, mapping `FnError` to `Error::Fn`. -/
def evaluate (ctx : TraceContext) : Term → Except Error Value
  | Term.Variable v =>
    match ((ctx.find_variable v.typ v.query).map boxedTerm).orElse
        (fun _ =>
          match v.query.source with
          | some (Source.Agent agent_name) => ctx.find_claim agent_name v.typ
          | _ => none) with
    | some data => Except.ok data
    | none =>
      Except.error (Error.Term ("Unable to find variable " ++ variableDisplay v ++ "!"))
  | Term.Application func args =>
    match evaluateArgs ctx args with
    | Except.error e => Except.error e
    | Except.ok dynamic_args => (func.dynamic_fn dynamic_args).mapError Error.Fn

/-- The argument loop of `Term::evaluate`'s `Application` branch: evaluate each
sub-term in order, pushing results; return the first error unchanged. -/
def evaluateArgs (ctx : TraceContext) : List Term → Except Error (List Value)
  | [] => Except.ok []
  | t :: ts =>
    match evaluate ctx t with
    | Except.error e => Except.error e
    | Except.ok data =>
      match evaluateArgs ctx ts with
      | Except.error e => Except.error e
      | Except.ok rest => Except.ok (data :: rest)

end

/-- The sub-terms of an argument list on which the evaluation loop calls
`evaluate` before stopping: all of them when every evaluation succeeds, and
the prefix up to and including the first failing one otherwise. This is an
observer of the loop in `Term::evaluate`, used to state that evaluation is
strictly left-to-right and stops at the first failure. -/
def argsEvaluated (ctx : TraceContext) : List Term → List Term
  | [] => []
  | t :: ts =>
    match evaluate ctx t with
    | Except.ok _ => t :: argsEvaluated ctx ts
    | Except.error _ => [t]

mutual

/-- Model of `Term::size` (`puffin/src/algebra/term.rs:44-51`): total node
count, a variable counting 1 and an application the sum over sub-terms plus 1. -/
def Term.size : Term → Nat
  | Term.Variable _ => 1
  | Term.Application _ subterms => Term.sizeList subterms + 1

/-- Sum of sizes over a sub-term list (the source's `map(size).sum()`). -/
def Term.sizeList : List Term → Nat
  | [] => 0
  | t :: ts => Term.size t + Term.sizeList ts

end

mutual

/-- Model of the free function `append` (`puffin/src/algebra/term.rs:145-156`):
recursively push every sub-term into the accumulator vector, then push the
term itself. -/
def appendT : Term → List Term → List Term
  | Term.Variable v, acc => acc ++ [Term.Variable v]
  | Term.Application func subterms, acc =>
    appendTList subterms acc ++ [Term.Application func subterms]

/-- The `for subterm in subterms` loop of `append`, threading the accumulator. -/
def appendTList : List Term → List Term → List Term
  | [], acc => acc
  | t :: ts, acc => appendTList ts (appendT t acc)

end

/-- Model of `IntoIterator for &Term` (`puffin/src/algebra/term.rs:161-170`):
the vector produced by `append(self, &mut vec![])`, in iteration order. -/
def iterList (t : Term) : List Term := appendT t []

/-- Model of `str::split` at the separator character of `remove_prefix`
(`puffin/src/algebra/term.rs:227-243`): the pieces between occurrences of
the separator, in order, as Rust's `split` yields them. Strings are
modelled at the character level; the claim-relevant inputs are ASCII. -/
def splitChar : List Char → List (List Char)
  | [] => [[]]
  | a :: rest =>
    if a = '<' then [] :: splitChar rest
    else
      match splitChar rest with
      | [] => [[a]]
      | grp :: out => (a :: grp) :: out

theorem splitChar_ne_nil (s : List Char) : splitChar s ≠ [] := by
  cases s with
  | nil => simp [splitChar]
  | cons a rest =>
    by_cases h : a = '<'
    · simp [splitChar, h]
    · cases hs : splitChar rest with
      | nil => simp [splitChar, h, hs]
      | cons grp out => simp [splitChar, h, hs]

theorem splitChar_single (s : List Char) :
    ∀ a, splitChar s = [a] → s = a ∧ '<' ∉ a := by
  induction s with
  | nil =>
    intro a h
    simp [splitChar] at h
    simp [h]
  | cons c rest ih =>
    intro a h
    by_cases hc : c = '<'
    · simp [splitChar, hc] at h
      exact absurd h.2 (splitChar_ne_nil rest)
    · cases hs : splitChar rest with
      | nil => exact absurd hs (splitChar_ne_nil rest)
      | cons grp out =>
        simp [splitChar, hc, hs] at h
        obtain ⟨h1, h2⟩ := h
        obtain ⟨hr, hnotin⟩ := ih grp (by rw [hs, h2])
        constructor
        · rw [← h1, hr]
        · rw [← h1]
          intro hmem
          rcases List.mem_cons.mp hmem with h | h
          · exact hc h.symm
          · exact hnotin h

theorem splitChar_pair (s : List Char) :
    ∀ a b, splitChar s = [a, b] → s = a ++ '<' :: b ∧ '<' ∉ a ∧ '<' ∉ b := by
  induction s with
  | nil =>
    intro a b h
    simp [splitChar] at h
  | cons c rest ih =>
    intro a b h
    by_cases hc : c = '<'
    · simp [splitChar, hc] at h
      obtain ⟨h1, h2⟩ := h
      obtain ⟨hr, hnotin⟩ := splitChar_single rest b h2
      subst h1
      refine ⟨?_, by simp, hnotin⟩
      simp [hc, hr]
    · cases hs : splitChar rest with
      | nil => exact absurd hs (splitChar_ne_nil rest)
      | cons grp out =>
        simp [splitChar, hc, hs] at h
        obtain ⟨h1, h2⟩ := h
        obtain ⟨hr, hna, hnb⟩ := ih grp b (by rw [hs, h2])
        refine ⟨?_, ?_, hnb⟩
        · rw [← h1, hr]
          rfl
        · rw [← h1]
          intro hmem
          rcases List.mem_cons.mp hmem with h | h
          · exact hc h.symm
          · exact hna h

theorem splitChar_of_not_mem (s : List Char) (h : '<' ∉ s) : splitChar s = [s] := by
  induction s with
  | nil => simp [splitChar]
  | cons c rest ih =>
    have hc : ¬ c = '<' := fun hx => h (by simp [hx])
    have hr : '<' ∉ rest := fun hx => h (List.mem_cons_of_mem _ hx)
    simp [splitChar, hc, ih hr]

theorem splitChar_append_pair (a b : List Char) (ha : '<' ∉ a) (hb : '<' ∉ b) :
    splitChar (a ++ '<' :: b) = [a, b] := by
  induction a with
  | nil => simp [splitChar, splitChar_of_not_mem b hb]
  | cons c arest ih =>
    have hc : ¬ c = '<' := fun hx => ha (by simp [hx])
    have har : '<' ∉ arest := fun hx => ha (List.mem_cons_of_mem _ hx)
    simp [splitChar, hc, ih har]

/-- Model of `str::rfind("::")` from `remove_prefix`: the start index of the
last occurrence of two consecutive colons, if any. -/
def rfindColons : List Char → Option Nat
  | [] => none
  | a :: rest =>
    match rfindColons rest with
    | some p => some (p + 1)
    | none =>
      if a = ':' ∧ rest.head? = some ':' then some 0 else none

/-- The branch `if let Some(pos) = str.rfind("::") { str[pos + 2 ..] } else
{ str }` of `remove_prefix`, shared by both of its occurrences in the source. -/
def stripColons (s : List Char) : List Char :=
  match rfindColons s with
  | some pos => s.drop (pos + 2)
  | none => s

theorem rfindColons_drop (s : List Char) :
    ∀ p, rfindColons s = some p → rfindColons (s.drop (p + 2)) = none := by
  induction s with
  | nil => intro p h; simp [rfindColons] at h
  | cons a rest ih =>
    intro p h
    cases hr : rfindColons rest with
    | some q =>
      simp [rfindColons, hr] at h
      have : (a :: rest).drop (p + 2) = rest.drop (q + 2) := by
        rw [← h]
        rfl
      rw [this]
      exact ih q hr
    | none =>
      simp [rfindColons, hr] at h
      obtain ⟨hcond, hp⟩ := h
      cases rest with
      | nil => simp at hcond
      | cons b tail =>
        have htail : rfindColons tail = none := by
          cases ht : rfindColons tail with
          | none => rfl
          | some q => simp [rfindColons, ht] at hr
        rw [← hp]
        simpa using htail

theorem stripColons_no_colons (s : List Char) :
    rfindColons (stripColons s) = none := by
  unfold stripColons
  cases h : rfindColons s with
  | some p => exact rfindColons_drop s p h
  | none => exact h

theorem stripColons_sublist (s : List Char) : (stripColons s).Sublist s := by
  unfold stripColons
  cases h : rfindColons s with
  | some p => exact List.drop_sublist _ _
  | none => exact List.Sublist.refl s

theorem stripColons_not_mem (s : List Char) (h : '<' ∉ s) :
    '<' ∉ stripColons s :=
  fun hx => h ((stripColons_sublist s).mem hx)

theorem stripColons_of_none (s : List Char) (h : rfindColons s = none) :
    stripColons s = s := by
  unfold stripColons
  rw [h]

/-- Model of `remove_prefix` (`puffin/src/algebra/term.rs:227-243`). The
source splits at the separator and takes the branch for exactly two pieces
(`collect_tuple`); there it drops the generic's final character, recurses on
the generic, and strips the head's module path; with any other number of
pieces it strips the module path of the whole string. The source slices
`generic[0 .. generic.len() - 1]`, which panics for an empty generic; the
panic is modelled as `none` and propagated through the recursive call. -/
def removePfx (s : List Char) : Option (List Char) :=
  match h : splitChar s with
  | [non_generic, generic0] =>
    if generic0 = [] then none
    else
      match removePfx generic0.dropLast with
      | none => none
      | some gr => some (stripColons non_generic ++ '<' :: (gr ++ ['>']))
  | _ => some (stripColons s)
termination_by s.length
decreasing_by
  have hp := (splitChar_pair s non_generic generic0 h).1
  have hlen : s.length = non_generic.length + 1 + generic0.length := by
    rw [hp]
    simp
    omega
  have hdl : generic0.dropLast.length = generic0.length - 1 :=
    List.length_dropLast generic0
  omega

theorem removePfx_of_not_mem (s : List Char) (h : '<' ∉ s) :
    removePfx s = some (stripColons s) := by
  rw [removePfx.eq_def]
  split
  · rename_i ng g0 heq
    rw [splitChar_of_not_mem s h] at heq
    simp at heq
  · rfl

theorem removePfx_pair_nil (a : List Char) (ha : '<' ∉ a) :
    removePfx (a ++ ['<']) = none := by
  rw [removePfx.eq_def]
  split
  · rename_i ng g0 heq
    have hsp : splitChar (a ++ '<' :: ([] : List Char)) = [a, []] :=
      splitChar_append_pair a [] ha (by simp)
    rw [hsp] at heq
    obtain ⟨rfl, rfl⟩ := by
      simpa using heq
    simp
  · rename_i hne
    exact absurd (splitChar_append_pair a [] ha (by simp)) (hne a [])

theorem removePfx_pair (a b : List Char) (ha : '<' ∉ a) (hb : '<' ∉ b)
    (hbne : b ≠ []) :
    removePfx (a ++ '<' :: b) =
      match removePfx b.dropLast with
      | none => none
      | some gr => some (stripColons a ++ '<' :: (gr ++ ['>'])) := by
  rw [removePfx.eq_def]
  split
  · rename_i ng g0 heq
    rw [splitChar_append_pair a b ha hb] at heq
    obtain ⟨rfl, rfl⟩ := by
      simpa using heq
    rw [if_neg hbne]
  · rename_i hne
    exact absurd (splitChar_append_pair a b ha hb) (hne a b)

/-- Model of `puffin::algebra::signature::FunctionDefinition`: the pair of a
shape and a dynamic function, as the term zoo consumes it. -/
structure FunctionDefinition where
  shape : DynamicFunctionShape
  dynamic_fn : List Value → Except FnError Value

/-- Model of `puffin::algebra::signature::Signature` as used by
`TermZoo::generate` (`signature.rs` itself is not under `src/`): the list of
function definitions and the lookup-by-return-type index, a map modelled as a
function into `Option`. -/
structure Signature where
  functions : List FunctionDefinition
  functions_by_typ : TypeShape → Option (List FunctionDefinition)

/-- The random number generators of the zoo are modelled as streams of draws
indexed by a position that the generator threads through every choice. -/
abbrev Rng := Nat → Nat

/-- Modelled from the spec: `Choosable::choose`
(`puffin/src/fuzzer/mutations.rs`, not under `src/`) draws uniformly from the
candidate list — here the draw picks the index `r % length` — and yields
nothing on an empty list. -/
def choose {α : Type} (l : List α) (r : Nat) : Option α :=
  l.get? (r % l.length)

/-- Maximum term depth of the zoo (`term_zoo.rs:12`). -/
def MAX_DEPTH : Nat := 8

/-- Maximum number of generation attempts per symbol (`term_zoo.rs:13`). -/
def MAX_TRIES : Nat := 100

/-- The `for typ in required_types` loop of `TermZoo::generate_term`
(`term_zoo.rs:59-78`): look up the candidate symbols for each required
argument type, choose one, recurse on it, and give up (`return None`) when
the type has no entry, the candidate list is empty, or the recursive call
fails. The second component is the rng position after the consumed draws. -/
def genArgs (sig : Signature) (rng : Rng)
    (recur : FunctionDefinition → Nat → Option Term × Nat) :
    List TypeShape → Nat → Option (List Term) × Nat
  | [], i => (some [], i)
  | typ :: rest, i =>
    match sig.functions_by_typ typ with
    | none => (none, i)
    | some possibilities =>
      match choose possibilities (rng i) with
      | none => (none, i + 1)
      | some possibility =>
        match recur possibility (i + 1) with
        | (none, i2) => (none, i2)
        | (some subterm, i2) =>
          match genArgs sig rng recur rest i2 with
          | (none, i3) => (none, i3)
          | (some subterms, i3) => (some (subterm :: subterms), i3)

/-- Model of `TermZoo::generate_term` (`term_zoo.rs:44-84`): fail at depth 0,
otherwise build the arguments with depth one less and wrap them in an
application of the definition's symbol. -/
def generateTerm (sig : Signature) (rng : Rng) :
    Nat → FunctionDefinition → Nat → Option Term × Nat
  | 0, _, i => (none, i)
  | d + 1, deff, i =>
    match genArgs sig rng (generateTerm sig rng d) deff.shape.argument_types i with
    | (none, i2) => (none, i2)
    | (some subterms, i2) =>
      (some (Term.Application (Function.new deff.shape deff.dynamic_fn) subterms), i2)

/-- The retry loop of `TermZoo::generate` (`term_zoo.rs:25-37`): count down
from the given counter, stopping at the first successful construction. -/
def attemptLoop (sig : Signature) (rng : Rng) (deff : FunctionDefinition) :
    Nat → Nat → Option Term × Nat
  | 0, i => (none, i)
  | c + 1, i =>
    match generateTerm sig rng MAX_DEPTH deff i with
    | (some t, i2) => (some t, i2)
    | (none, i2) => attemptLoop sig rng deff c i2

/-- Observer of `attemptLoop`: how many times the loop calls
`TermZoo::generate_term` before stopping. -/
def attemptCount (sig : Signature) (rng : Rng) (deff : FunctionDefinition) :
    Nat → Nat → Nat
  | 0, _ => 0
  | c + 1, i =>
    match generateTerm sig rng MAX_DEPTH deff i with
    | (some _, _) => 1
    | (none, i2) => attemptCount sig rng deff c i2 + 1

/-- The `filter_map` over the signature's functions in `TermZoo::generate`
(`term_zoo.rs:20-42`), threading the rng position. -/
def generateGo (sig : Signature) (rng : Rng) :
    List FunctionDefinition → Nat → List Term
  | [], _ => []
  | deff :: rest, i =>
    match attemptLoop sig rng deff MAX_TRIES i with
    | (some t, i2) => t :: generateGo sig rng rest i2
    | (none, i2) => generateGo sig rng rest i2

/-- Model of `TermZoo::generate`: the collected terms, one optional term per
function definition of the signature. -/
def TermZoo.generate (sig : Signature) (rng : Rng) : List Term :=
  generateGo sig rng sig.functions 0

mutual

/-- Nesting depth of a term: 1 for a leaf, one more than the deepest child
otherwise. -/
def termDepth : Term → Nat
  | Term.Variable _ => 1
  | Term.Application _ args => termDepthList args + 1

/-- Maximum of depths over a sub-term list. -/
def termDepthList : List Term → Nat
  | [] => 0
  | t :: ts => max (termDepth t) (termDepthList ts)

end

mutual

/-- A term is closed when it contains no `Variable` node. -/
def isClosed : Term → Bool
  | Term.Variable _ => false
  | Term.Application _ args => isClosedList args

/-- All terms of the list are closed. -/
def isClosedList : List Term → Bool
  | [] => true
  | t :: ts => isClosed t && isClosedList ts

end

/-- Per-kind error counters of the harness
(`puffin/src/fuzzer/stats_stage.rs` statics, as the match in `harness.rs`
increments them). -/
structure RunCounters where
  fn_error : Nat
  term_count : Nat
  put_count : Nat
  io_count : Nat
  agent_count : Nat
  stream_count : Nat
  extraction_count : Nat
deriving DecidableEq, Repr

/-- Model of `libafl::executors::ExitKind` as the harness uses it. -/
inductive ExitKind where
  | Ok
  | Timeout
deriving DecidableEq, Repr

/-- Outcome of one harness run: a returned exit kind with the counters as
left behind, or process termination (`std::process::abort()`). -/
inductive HarnessResult where
  | exited (k : ExitKind) (c : RunCounters)
  | aborted (c : RunCounters)
deriving DecidableEq, Repr

/-- Model of the error dispatch of `harness`
(`puffin/src/fuzzer/harness.rs:45-63`): given the result of
`input.execute(&mut ctx)` (an external call, passed as a value) and the
counters, return `ExitKind::Ok` after incrementing the matching per-kind
counter, except for `SecurityClaim`, which logs and aborts the process. -/
def harness (execResult : Except Error Unit) (c : RunCounters) : HarnessResult :=
  match execResult with
  | Except.ok _ => HarnessResult.exited ExitKind.Ok c
  | Except.error err =>
    match err with
    | Error.Fn _ => HarnessResult.exited ExitKind.Ok { c with fn_error := c.fn_error + 1 }
    | Error.Term _ => HarnessResult.exited ExitKind.Ok { c with term_count := c.term_count + 1 }
    | Error.Put _ => HarnessResult.exited ExitKind.Ok { c with put_count := c.put_count + 1 }
    | Error.Io _ => HarnessResult.exited ExitKind.Ok { c with io_count := c.io_count + 1 }
    | Error.Agent _ => HarnessResult.exited ExitKind.Ok { c with agent_count := c.agent_count + 1 }
    | Error.Stream _ => HarnessResult.exited ExitKind.Ok { c with stream_count := c.stream_count + 1 }
    | Error.Extraction => HarnessResult.exited ExitKind.Ok { c with extraction_count := c.extraction_count + 1 }
    | Error.SecurityClaim _ => HarnessResult.aborted c

/-- The error kind of a value of `Error`, numbering the eight variants. -/
def kindIndex : Error → Nat
  | Error.Fn _ => 0
  | Error.Term _ => 1
  | Error.Put _ => 2
  | Error.Io _ => 3
  | Error.Agent _ => 4
  | Error.Stream _ => 5
  | Error.Extraction => 6
  | Error.SecurityClaim _ => 7

/-- The per-kind counter an error kind owns (`SecurityClaim` owns none; the
harness aborts instead of counting it, so its slot reads as zero). -/
def counterOf : Error → RunCounters → Nat
  | Error.Fn _, c => c.fn_error
  | Error.Term _, c => c.term_count
  | Error.Put _, c => c.put_count
  | Error.Io _, c => c.io_count
  | Error.Agent _, c => c.agent_count
  | Error.Stream _, c => c.stream_count
  | Error.Extraction, c => c.extraction_count
  | Error.SecurityClaim _, _ => 0

/-- The sum of all per-kind counters. -/
def counterSum (c : RunCounters) : Nat :=
  c.fn_error + c.term_count + c.put_count + c.io_count + c.agent_count
    + c.stream_count + c.extraction_count

/-- Signatures are opaque for the anchor model; only their identity matters. -/
abbrev SignatureRef := Nat

/-- Model of `once_cell::sync::OnceCell::set`: install the value into an empty
cell and succeed, or leave a full cell unchanged and return the rejected value
as the error, exactly as `OnceCell::set` returns `Err(value)`. -/
def onceCellSet (cell : Option SignatureRef) (s : SignatureRef) :
    Option SignatureRef × Except SignatureRef Unit :=
  match cell with
  | none => (some s, Except.ok ())
  | some old => (some old, Except.error s)

/-- Model of `set_current_signature` (`puffin/src/algebra/mod.rs:54-56`): the
statement `CURRENT_SIGNATURE.set(signature);` discards the `Result` of
`OnceCell::set`, and the function returns unit, so only the cell state is
observable. -/
def set_current_signature (cell : Option SignatureRef) (signature : SignatureRef) :
    Option SignatureRef :=
  (onceCellSet cell signature).fst

end TlsPuffin

namespace TypeHelper

/-- The host types appearing in the older crate's `type_helper.rs` model
(`src/term/type_helper.rs`); distinct types have distinct `TypeId`s. -/
inductive RustTy where
  | unknownType
  | vecU8
  | serverHello
deriving DecidableEq, Repr

/-- The opaque `TypeId` of a host type; distinct constructors get distinct
identities, as Rust guarantees for distinct types in one process. -/
def rustTypeId : RustTy → Nat
  | RustTy.unknownType => 0
  | RustTy.vecU8 => 1
  | RustTy.serverHello => 2

/-- The `std::any::type_name` of a host type. -/
def rustTypeName : RustTy → String
  | RustTy.unknownType => "tlspuffin::term::type_helper::UnknownType"
  | RustTy.vecU8 => "alloc::vec::Vec<u8>"
  | RustTy.serverHello => "rustls::msgs::message::Message"

/-- Model of the older crate's `TypeShape` (`type_helper.rs:180-199`): a
`TypeId` and a static name; `PartialEq` compares only the id. -/
structure OldTypeShape where
  inner_type_id : Nat
  name : String
deriving DecidableEq, Repr

/-- Model of `TypeShape::of::<T>()`. -/
def OldTypeShape.of (t : RustTy) : OldTypeShape :=
  ⟨rustTypeId t, rustTypeName t⟩

/-- The source's `PartialEq for TypeShape` (`type_helper.rs:207-211`):
equality of the inner type ids only. -/
def oldTypeShapeEq (a b : OldTypeShape) : Bool :=
  a.inner_type_id == b.inner_type_id

/-- Model of `Serialize for TypeShape` (`type_helper.rs:255-263`): the
implementation, marked `todo`, writes the constant `1u64` whatever the
shape. -/
def serializeTypeShape (_t : OldTypeShape) : Nat := 1

/-- Model of `Deserialize for TypeShape` (`type_helper.rs:289-299`): the
implementation, marked `todo`, ignores the read integer and returns
`TypeShape::of::<UnknownType>()`. -/
def deserializeTypeShape (_n : Nat) : OldTypeShape :=
  OldTypeShape.of RustTy.unknownType

/-- The dynamic-function symbols of the older crate, identified by the typed
function they wrap. -/
inductive DynFunc where
  | opServerHello
  | opOther (k : Nat)
deriving DecidableEq, Repr

/-- Model of `Serialize for Box<dyn DynamicFunction>` (`type_helper.rs:215-224`):
the implementation, marked `todo`, writes `type_name::<dyn DynamicFunction>()`,
a constant string, whatever the function. -/
def serializeDynFunc (_f : DynFunc) : String :=
  "dyn tlspuffin::term::type_helper::DynamicFunction"

/-- Model of `Deserialize for Box<dyn DynamicFunction>`
(`type_helper.rs:243-253`): the implementation, marked `todo`, ignores the
read string and returns `make_dynamic(&op_server_hello).1`. -/
def deserializeDynFunc (_s : String) : DynFunc :=
  DynFunc.opServerHello

/-- An erased `Box<dyn Any>` value: a runtime type id with an opaque payload. -/
structure AnyBox where
  tyId : Nat
  payload : Nat
deriving DecidableEq, Repr

/-- Model of `Any::downcast_ref::<T>()`: the payload when the runtime type id
matches `T`, nothing otherwise. -/
def downcastRef (t : Nat) (a : AnyBox) : Option Nat :=
  if a.tyId = t then some a.payload else none

/-- Outcome of calling an erased callable of the older crate: a returned boxed
value, or a Rust panic with its message (the `DynamicFunction` trait there is
`Fn(&Vec<Box<dyn Any>>) -> Box<dyn Any>`, with no error channel). -/
inductive DynOutcome where
  | value (v : AnyBox)
  | panicked (msg : String)
deriving DecidableEq, Repr

/-- Display of `DynamicFunctionShape` (`type_helper.rs:30-43`):
`name(arg1,arg2) -> ret`. -/
def oldShapeDisplay (name : String) (args : List OldTypeShape)
    (ret : OldTypeShape) : String :=
  name ++ "(" ++ String.intercalate "," (args.map (fun t => t.name)) ++ ") -> "
    ++ ret.name

/-- Model of `format_args` (`type_helper.rs:53-63`): the bracketed list of the
hashed type ids of the passed arguments. The 64-bit `DefaultHasher` rendering
is opaque; the model renders the id itself. -/
def formatArgsStr (args : List AnyBox) : String :=
  "(" ++ String.intercalate "," (args.map (fun a => Nat.repr a.tyId)) ++ ")"

/-- Model of the erased callable that `make_dynamic` builds for a two-argument
function (`type_helper.rs:128-158`, macro `dynamic_fn!(T1 T2 => R)`). For each
positional argument in order it fetches `args.get(index)` — panicking with
`Missing argument #k while calling name.` when absent — and downcasts it —
panicking with `Passed argument #k of ...` when the shape does not match;
with both arguments in place it boxes the typed function's result under the
return type's id. -/
def makeDynamic2 (name : String) (ts1 ts2 ret : OldTypeShape)
    (f : Nat → Nat → Nat) (args : List AnyBox) : DynOutcome :=
  match args.get? 0 with
  | none => DynOutcome.panicked ("Missing argument #1 while calling " ++ name ++ ".")
  | some a1 =>
    match downcastRef ts1.inner_type_id a1 with
    | none =>
      DynOutcome.panicked ("Passed argument #1 of " ++ name
        ++ " did not match the shape " ++ oldShapeDisplay name [ts1, ts2] ret
        ++ ". Hashes of passed types are " ++ formatArgsStr args ++ ".")
    | some x1 =>
      match args.get? 1 with
      | none =>
        DynOutcome.panicked ("Missing argument #2 while calling " ++ name ++ ".")
      | some a2 =>
        match downcastRef ts2.inner_type_id a2 with
        | none =>
          DynOutcome.panicked ("Passed argument #2 of " ++ name
            ++ " did not match the shape " ++ oldShapeDisplay name [ts1, ts2] ret
            ++ ". Hashes of passed types are " ++ formatArgsStr args ++ ".")
        | some x2 => DynOutcome.value ⟨ret.inner_type_id, f x1 x2⟩

end TypeHelper

namespace Rustls

/-- Model of `Codec::encode for PayloadU8`
(`tlspuffin/src/tls/rustls/msgs/base.rs:127-131`): write the payload length
truncated to one byte (`len as u8`), then the payload bytes. -/
def payloadU8Encode (v : List Nat) : List Nat :=
  (v.length % 256) :: v

/-- Modelled from the spec: `puffin::codec::Reader`/`Codec for u8` are not
under `src/`; a reader is a cursor over the byte list, and `u8::read`
consumes its first byte. -/
def u8Read (r : List Nat) : Option (Nat × List Nat) :=
  match r with
  | [] => none
  | b :: rest => some (b, rest)

/-- Modelled from the spec: `Reader::sub(len)` yields a sub-reader over the
next `len` bytes when that many remain (its `rest()` is those bytes), and
fails otherwise. -/
def readerSub (r : List Nat) (len : Nat) : Option (List Nat × List Nat) :=
  if len ≤ r.length then some (r.take len, r.drop len) else none

/-- Model of `Codec::read for PayloadU8` (`base.rs:133-138`): read the length
byte, take that many bytes as the payload, and return it with the rest of the
reader. -/
def payloadU8Read (r : List Nat) : Option (List Nat × List Nat) :=
  match u8Read r with
  | none => none
  | some (len, r1) =>
    match readerSub r1 len with
    | none => none
    | some (sub, r2) => some (sub, r2)

end Rustls

namespace TlsPuffin

theorem evaluateArgs_first_error (ctx : TraceContext) :
    ∀ (args : List Term) (k : Nat) (tk : Term) (e : Error),
      (∀ j, j < k → ∃ tj v, args.get? j = some tj ∧ evaluate ctx tj = Except.ok v) →
      args.get? k = some tk → evaluate ctx tk = Except.error e →
      evaluateArgs ctx args = Except.error e ∧
        argsEvaluated ctx args = args.take (k + 1) := by
  intro args
  induction args with
  | nil => intro k tk e _ hk _; simp at hk
  | cons a rest ih =>
    intro k tk e hpre hk he
    cases k with
    | zero =>
      simp at hk
      subst hk
      refine ⟨by simp [evaluateArgs, he], by simp [argsEvaluated, he]⟩
    | succ j =>
      obtain ⟨t0, v0, h0, hv0⟩ := hpre 0 (Nat.succ_pos j)
      simp at h0
      subst h0
      have hk2 : rest.get? j = some tk := by simpa using hk
      have hpre2 : ∀ j2, j2 < j →
          ∃ tj v, rest.get? j2 = some tj ∧ evaluate ctx tj = Except.ok v := by
        intro j2 hj2
        obtain ⟨tj, v, hj, hv⟩ := hpre (j2 + 1) (by omega)
        exact ⟨tj, v, by simpa using hj, hv⟩
      obtain ⟨h1, h2⟩ := ih j tk e hpre2 hk2 he
      refine ⟨by simp [evaluateArgs, hv0, h1], ?_⟩
      simp [argsEvaluated, hv0, h2]

theorem evaluateArgs_all_ok (ctx : TraceContext) :
    ∀ args : List Term, (∀ t ∈ args, ∃ v, evaluate ctx t = Except.ok v) →
      ∃ vs, evaluateArgs ctx args = Except.ok vs ∧ vs.length = args.length ∧
        (∀ j tj, args.get? j = some tj →
          ∃ v, evaluate ctx tj = Except.ok v ∧ vs.get? j = some v) ∧
        argsEvaluated ctx args = args := by
  intro args
  induction args with
  | nil =>
    intro _
    refine ⟨[], by simp [evaluateArgs], rfl, ?_, by simp [argsEvaluated]⟩
    intro j tj hj
    simp at hj
  | cons a rest ih =>
    intro h
    obtain ⟨v, hv⟩ := h a (by simp)
    obtain ⟨vs, h1, h2, h3, h4⟩ := ih (fun t ht => h t (by simp [ht]))
    refine ⟨v :: vs, by simp [evaluateArgs, hv, h1], by simp [h2], ?_, ?_⟩
    · intro j tj hj
      cases j with
      | zero =>
        simp at hj
        subst hj
        exact ⟨v, hv, rfl⟩
      | succ j2 =>
        obtain ⟨v2, hv2, hvs2⟩ := h3 j2 tj (by simpa using hj)
        exact ⟨v2, hv2, by simpa using hvs2⟩
    · simp [argsEvaluated, hv, h4]

mutual

theorem appendT_acc (t : Term) (acc : List Term) :
    appendT t acc = acc ++ appendT t [] := by
  cases t with
  | Variable v => simp [appendT]
  | Application func subterms =>
    rw [appendT, appendT, appendTList_acc subterms acc, List.append_assoc]

theorem appendTList_acc (ts : List Term) (acc : List Term) :
    appendTList ts acc = acc ++ appendTList ts [] := by
  cases ts with
  | nil => simp [appendTList]
  | cons t rest =>
    rw [appendTList, appendTList, appendTList_acc rest (appendT t acc),
      appendTList_acc rest (appendT t []), appendT_acc t acc, List.append_assoc]

end

mutual

theorem iterList_len (t : Term) : (iterList t).length = Term.size t := by
  cases t with
  | Variable v => simp [iterList, appendT, Term.size]
  | Application func subterms =>
    rw [iterList, appendT, Term.size]
    simp [appendTList_len subterms]

theorem appendTList_len (ts : List Term) :
    (appendTList ts []).length = Term.sizeList ts := by
  cases ts with
  | nil => simp [appendTList, Term.sizeList]
  | cons t rest =>
    rw [appendTList, appendTList_acc rest (appendT t []), Term.sizeList]
    simp [appendTList_len rest, ← iterList_len t, iterList]

end

theorem iterList_last (t : Term) : (iterList t).getLast? = some t := by
  cases t with
  | Variable v => simp [iterList, appendT]
  | Application func subterms =>
    rw [iterList, appendT]
    exact List.getLast?_concat _

theorem self_mem_iterList (t : Term) : t ∈ iterList t := by
  cases t with
  | Variable v => simp [iterList, appendT]
  | Application func subterms => simp [iterList, appendT]

theorem iterList_app_decomp (func : Function) (args : List Term) :
    iterList (Term.Application func args) =
      (args.map iterList).flatten ++ [Term.Application func args] := by
  rw [iterList, appendT]
  congr 1
  induction args with
  | nil => simp [appendTList]
  | cons t rest ih =>
    rw [appendTList, appendTList_acc rest (appendT t [])]
    simp [ih, iterList]

theorem termDepthList_le_of (d : Nat) :
    ∀ ts : List Term, (∀ s ∈ ts, termDepth s ≤ d) → termDepthList ts ≤ d := by
  intro ts
  induction ts with
  | nil => intro _; simp [termDepthList]
  | cons t rest ih =>
    intro h
    rw [termDepthList]
    exact max_le (h t (by simp)) (ih fun s hs => h s (by simp [hs]))

theorem isClosedList_of :
    ∀ ts : List Term, (∀ s ∈ ts, isClosed s = true) → isClosedList ts = true := by
  intro ts
  induction ts with
  | nil => intro _; simp [isClosedList]
  | cons t rest ih =>
    intro h
    rw [isClosedList]
    simp [h t (by simp), ih fun s hs => h s (by simp [hs])]

theorem genArgs_forall (sig : Signature) (rng : Rng)
    (recur : FunctionDefinition → Nat → Option Term × Nat) (P : Term → Prop)
    (hrec : ∀ deff i t i2, recur deff i = (some t, i2) → P t) :
    ∀ (types : List TypeShape) (i : Nat) (subs : List Term) (i2 : Nat),
      genArgs sig rng recur types i = (some subs, i2) → ∀ s ∈ subs, P s := by
  intro types
  induction types with
  | nil =>
    intro i subs i2 h s hs
    simp [genArgs] at h
    obtain ⟨h1, -⟩ := h
    subst h1
    simp at hs
  | cons typ rest ih =>
    intro i subs i2 h s hs
    rw [genArgs] at h
    cases h1 : sig.functions_by_typ typ with
    | none => simp [h1] at h
    | some possibilities =>
      simp only [h1] at h
      cases h2 : choose possibilities (rng i) with
      | none => simp [h2] at h
      | some possibility =>
        simp only [h2] at h
        cases h3 : recur possibility (i + 1) with
        | mk o i2a =>
          cases o with
          | none => simp [h3] at h
          | some subterm =>
            simp only [h3] at h
            cases h4 : genArgs sig rng recur rest i2a with
            | mk o2 i3 =>
              cases o2 with
              | none => simp [h4] at h
              | some subterms2 =>
                simp only [h4] at h
                have h5 : subterm :: subterms2 = subs := by
                  have h6 := congrArg Prod.fst h
                  simpa using h6
                subst h5
                rcases List.mem_cons.mp hs with hse | hse
                · rw [hse]; exact hrec possibility (i + 1) subterm i2a h3
                · exact ih i2a subterms2 i3 h4 s hse

theorem generateTerm_props (sig : Signature) (rng : Rng) :
    ∀ (d : Nat) (deff : FunctionDefinition) (i : Nat) (t : Term) (i2 : Nat),
      generateTerm sig rng d deff i = (some t, i2) →
      termDepth t ≤ d ∧ isClosed t = true ∧
        ∃ args2, t = Term.Application (Function.new deff.shape deff.dynamic_fn) args2 := by
  intro d
  induction d with
  | zero => intro deff i t i2 h; simp [generateTerm] at h
  | succ d ih =>
    intro deff i t i2 h
    rw [generateTerm] at h
    cases hg : genArgs sig rng (generateTerm sig rng d) deff.shape.argument_types i with
    | mk o i3 =>
      cases o with
      | none => rw [hg] at h; simp at h
      | some subterms =>
        rw [hg] at h
        simp at h
        have hall := genArgs_forall sig rng (generateTerm sig rng d)
          (fun s => termDepth s ≤ d ∧ isClosed s = true)
          (fun deff2 i0 t0 i20 h0 => ⟨(ih deff2 i0 t0 i20 h0).1, (ih deff2 i0 t0 i20 h0).2.1⟩)
          deff.shape.argument_types i subterms i3 hg
        refine ⟨?_, ?_, subterms, h.1.symm⟩
        · rw [← h.1, termDepth]
          have := termDepthList_le_of d subterms (fun s hs => (hall s hs).1)
          omega
        · rw [← h.1, isClosed]
          exact isClosedList_of subterms (fun s hs => (hall s hs).2)

theorem attemptLoop_props (sig : Signature) (rng : Rng) (deff : FunctionDefinition) :
    ∀ (c : Nat) (i : Nat) (t : Term) (i2 : Nat),
      attemptLoop sig rng deff c i = (some t, i2) →
      termDepth t ≤ MAX_DEPTH ∧ isClosed t = true ∧
        ∃ args2, t = Term.Application (Function.new deff.shape deff.dynamic_fn) args2 := by
  intro c
  induction c with
  | zero => intro i t i2 h; simp [attemptLoop] at h
  | succ c ih =>
    intro i t i2 h
    rw [attemptLoop] at h
    cases hgen : generateTerm sig rng MAX_DEPTH deff i with
    | mk o i3 =>
      cases o with
      | none =>
        rw [hgen] at h
        exact ih i3 t i2 h
      | some t0 =>
        rw [hgen] at h
        simp at h
        rw [← h.1]
        exact generateTerm_props sig rng MAX_DEPTH deff i t0 i3 hgen

theorem attemptCount_le_tries (sig : Signature) (rng : Rng) (deff : FunctionDefinition) :
    ∀ (c : Nat) (i : Nat), attemptCount sig rng deff c i ≤ c := by
  intro c
  induction c with
  | zero => intro i; simp [attemptCount]
  | succ c ih =>
    intro i
    rw [attemptCount]
    cases hgen : generateTerm sig rng MAX_DEPTH deff i with
    | mk o i3 =>
      cases o with
      | none =>
        simp only [hgen]
        have := ih i3
        omega
      | some t0 =>
        simp only [hgen]
        omega

theorem generateGo_props (sig : Signature) (rng : Rng) :
    ∀ (defs : List FunctionDefinition) (i : Nat),
      (generateGo sig rng defs i).length ≤ defs.length ∧
      ∀ t ∈ generateGo sig rng defs i, ∃ deff ∈ defs,
        (∃ args2, t = Term.Application (Function.new deff.shape deff.dynamic_fn) args2) ∧
        isClosed t = true ∧ termDepth t ≤ MAX_DEPTH := by
  intro defs
  induction defs with
  | nil => intro i; simp [generateGo]
  | cons deff rest ih =>
    intro i
    rw [generateGo]
    cases hat : attemptLoop sig rng deff MAX_TRIES i with
    | mk o i2 =>
      cases o with
      | none =>
        obtain ⟨hl, hm⟩ := ih i2
        refine ⟨by simpa using Nat.le_succ_of_le hl, ?_⟩
        intro t ht
        obtain ⟨deff2, hd2, hrest⟩ := hm t ht
        exact ⟨deff2, by simp [hd2], hrest⟩
      | some t0 =>
        obtain ⟨hl, hm⟩ := ih i2
        refine ⟨by simpa using hl, ?_⟩
        intro t ht
        rcases List.mem_cons.mp ht with hte | hte
        · obtain ⟨hdep, hcl, hroot⟩ := attemptLoop_props sig rng deff MAX_TRIES i t0 i2 hat
          exact ⟨deff, by simp, by rw [hte]; exact hroot, by rw [hte]; exact hcl,
            by rw [hte]; exact hdep⟩
        · obtain ⟨deff2, hd2, hrest⟩ := hm t hte
          exact ⟨deff2, by simp [hd2], hrest⟩

theorem count_one_decomp :
    ∀ s : List Char, s.count '<' = 1 →
      ∃ a b, s = a ++ '<' :: b ∧ '<' ∉ a ∧ '<' ∉ b := by
  intro s
  induction s with
  | nil => intro h; simp at h
  | cons c rest ih =>
    intro h
    by_cases hc : c = '<'
    · have hr : rest.count '<' = 0 := by
        rw [hc] at h
        simp [List.count_cons] at h
        exact h
      exact ⟨[], rest, by simp [hc], by simp, List.count_eq_zero.mp hr⟩
    · have hr : rest.count '<' = 1 := by
        simp [List.count_cons, hc] at h
        exact h
      obtain ⟨a, b, hab, ha, hb⟩ := ih hr
      exact ⟨c :: a, b, by simp [hab], by
        intro hx
        rcases List.mem_cons.mp hx with hx | hx
        · exact hc hx.symm
        · exact ha hx, hb⟩

theorem removePfx_default (s : List Char)
    (h : ∀ a b, splitChar s ≠ [a, b]) :
    removePfx s = some (stripColons s) := by
  rw [removePfx.eq_def]
  split
  · rename_i ng g0 heq
    exact absurd heq (h ng g0)
  · rfl

theorem removePfx_pair_some (a b gr : List Char) (ha : '<' ∉ a) (hb : '<' ∉ b)
    (hbne : b ≠ []) (hinner : removePfx b.dropLast = some gr) :
    removePfx (a ++ '<' :: b) =
      some (stripColons a ++ '<' :: (gr ++ ['>'])) := by
  rw [removePfx_pair a b ha hb hbne, hinner]

/-- C2: for every `Variable` term, `evaluate` first queries the trace
context's knowledge base with the variable's type shape and query and returns
a boxed clone when found; on a miss it falls back to the agent's claim store
exactly when the query's source is an agent; when both lookups miss — and in
particular whenever the source is not an agent, in which case the claim store
is never consulted — it returns the error
`Term("Unable to find variable ...")`. -/
theorem c2_evaluate_variable :
    ∀ (ctx : TraceContext) (v : Variable),
      (∀ d, ctx.find_variable v.typ v.query = some d →
        evaluate ctx (Term.Variable v) = Except.ok (boxedTerm d)) ∧
      (∀ a, ctx.find_variable v.typ v.query = none →
        v.query.source = some (Source.Agent a) →
        evaluate ctx (Term.Variable v) =
          match ctx.find_claim a v.typ with
          | some claim => Except.ok claim
          | none => Except.error (Error.Term
              ("Unable to find variable " ++ variableDisplay v ++ "!"))) ∧
      (ctx.find_variable v.typ v.query = none →
        (∀ a, v.query.source ≠ some (Source.Agent a)) →
        evaluate ctx (Term.Variable v) =
          Except.error (Error.Term
            ("Unable to find variable " ++ variableDisplay v ++ "!"))) := by
  intro ctx v
  refine ⟨?_, ?_, ?_⟩
  · intro d hd
    simp [evaluate, hd, Option.orElse]
  · intro a h1 h2
    cases hc : ctx.find_claim a v.typ with
    | some claim => simp [evaluate, h1, h2, hc, Option.orElse]
    | none => simp [evaluate, h1, h2, hc, Option.orElse]
  · intro h1 h2
    cases hs : v.query.source with
    | none => simp [evaluate, h1, hs, Option.orElse]
    | some src =>
      cases src with
      | Agent a => exact absurd hs (h2 a)
      | Label l => simp [evaluate, h1, hs, Option.orElse]

/-- C3: for every `Application` term, `evaluate` evaluates the sub-terms
strictly left-to-right; when some sub-term fails after an all-successful
prefix, the first error is propagated unchanged and no later sub-term is
evaluated (the evaluated sub-terms are exactly the prefix up to the failing
one); when every sub-term succeeds, the function symbol's dynamic function is
invoked on the collected results in order and its `FnError` is mapped to
`Error::Fn`. -/
theorem c3_evaluate_application :
    ∀ (ctx : TraceContext) (func : Function) (args : List Term),
      (∀ k e, (∀ j, j < k →
          ∃ tj v, args.get? j = some tj ∧ evaluate ctx tj = Except.ok v) →
        (∃ tk, args.get? k = some tk ∧ evaluate ctx tk = Except.error e) →
        evaluate ctx (Term.Application func args) = Except.error e ∧
          argsEvaluated ctx args = args.take (k + 1)) ∧
      ((∀ t ∈ args, ∃ v, evaluate ctx t = Except.ok v) →
        ∃ vs, evaluateArgs ctx args = Except.ok vs ∧
          vs.length = args.length ∧
          (∀ j tj, args.get? j = some tj →
            ∃ v, evaluate ctx tj = Except.ok v ∧ vs.get? j = some v) ∧
          evaluate ctx (Term.Application func args) =
            (func.dynamic_fn vs).mapError Error.Fn ∧
          argsEvaluated ctx args = args) := by
  intro ctx func args
  constructor
  · intro k e hpre hex
    obtain ⟨tk, hk, he⟩ := hex
    obtain ⟨h1, h2⟩ := evaluateArgs_first_error ctx args k tk e hpre hk he
    exact ⟨by simp [evaluate, h1], h2⟩
  · intro hall
    obtain ⟨vs, h1, h2, h3, h4⟩ := evaluateArgs_all_ok ctx args hall
    exact ⟨vs, h1, h2, h3, by simp [evaluate, h1], h4⟩

/-- C6: iterating over a term yields exactly `size` sub-terms in post-order:
the term itself comes last, the traversal of an application is the
concatenation of its children's traversals followed by the application
itself, and hence every child occurs at a strictly smaller index than its
parent. -/
theorem c6_iter_postorder :
    ∀ t : Term,
      (iterList t).length = Term.size t ∧
      (iterList t).getLast? = some t ∧
      ∀ func args, t = Term.Application func args →
        iterList t = (args.map iterList).flatten ++ [t] ∧
        ∀ c ∈ args, ∃ i j, i < j ∧
          (iterList t).get? i = some c ∧ (iterList t).get? j = some t := by
  intro t
  refine ⟨iterList_len t, iterList_last t, ?_⟩
  intro func args ht
  subst ht
  refine ⟨iterList_app_decomp func args, ?_⟩
  intro c hc
  have hmem : c ∈ (args.map iterList).flatten :=
    List.mem_flatten.mpr ⟨iterList c, List.mem_map_of_mem _ hc, self_mem_iterList c⟩
  obtain ⟨i, hi⟩ := List.mem_iff_get?.mp hmem
  have hlt : i < (args.map iterList).flatten.length := (List.get?_eq_some.mp hi).1
  refine ⟨i, (args.map iterList).flatten.length, hlt, ?_, ?_⟩
  · rw [iterList_app_decomp, List.get?_append hlt]
    exact hi
  · rw [iterList_app_decomp]
    exact List.get?_concat_length _ _

/-- C7: `TermZoo::generate` makes at most `MAX_TRIES = 100` construction
attempts per function symbol, collects at most one term per root symbol, and
every collected term is a closed `Application` rooted at its symbol whose
nesting depth does not exceed `MAX_DEPTH = 8`. -/
theorem c7_term_zoo :
    MAX_TRIES = 100 ∧ MAX_DEPTH = 8 ∧
    ∀ (sig : Signature) (rng : Rng),
      (∀ deff i, attemptCount sig rng deff MAX_TRIES i ≤ MAX_TRIES) ∧
      (TermZoo.generate sig rng).length ≤ sig.functions.length ∧
      ∀ t ∈ TermZoo.generate sig rng, ∃ deff ∈ sig.functions,
        (∃ args2, t = Term.Application (Function.new deff.shape deff.dynamic_fn) args2) ∧
        isClosed t = true ∧ termDepth t ≤ MAX_DEPTH := by
  refine ⟨rfl, rfl, ?_⟩
  intro sig rng
  exact ⟨fun deff i => attemptCount_le_tries sig rng deff MAX_TRIES i,
    (generateGo_props sig rng sig.functions 0).1,
    fun t ht => (generateGo_props sig rng sig.functions 0).2 t ht⟩

/-- C9: the fuzzing harness terminates the process if and only if trace
execution failed with `SecurityClaim`; for every other error kind it returns
`ExitKind::Ok` after incrementing exactly that kind's counter, leaving every
other per-kind counter unchanged; a successful execution returns
`ExitKind::Ok` with no counter touched. -/
theorem c9_harness_dispatch :
    ∀ (r : Except Error Unit) (c : RunCounters),
      ((∃ c2, harness r c = HarnessResult.aborted c2) ↔
        ∃ msg, r = Except.error (Error.SecurityClaim msg)) ∧
      (∀ msg, r = Except.error (Error.SecurityClaim msg) →
        harness r c = HarnessResult.aborted c) ∧
      (∀ u, r = Except.ok u →
        harness r c = HarnessResult.exited ExitKind.Ok c) ∧
      (∀ e, r = Except.error e → (∀ msg, e ≠ Error.SecurityClaim msg) →
        ∃ c2, harness r c = HarnessResult.exited ExitKind.Ok c2 ∧
          counterSum c2 = counterSum c + 1 ∧
          counterOf e c2 = counterOf e c + 1 ∧
          ∀ e2, kindIndex e2 ≠ kindIndex e → counterOf e2 c2 = counterOf e2 c) := by
  intro r c
  cases r with
  | ok u =>
    refine ⟨⟨?_, ?_⟩, ?_, ?_, ?_⟩
    · intro ⟨c2, hc2⟩
      simp [harness] at hc2
    · intro ⟨msg, hmsg⟩
      simp at hmsg
    · intro msg hmsg
      simp at hmsg
    · intro u2 _
      simp [harness]
    · intro e he
      simp at he
  | error e =>
    refine ⟨⟨?_, ?_⟩, ?_, ?_, ?_⟩
    · intro ⟨c2, hc2⟩
      cases e <;> simp [harness] at hc2
      exact ⟨_, rfl⟩
    · intro ⟨msg, hmsg⟩
      simp at hmsg
      subst hmsg
      exact ⟨c, by simp [harness]⟩
    · intro msg hmsg
      simp at hmsg
      subst hmsg
      simp [harness]
    · intro u hu
      simp at hu
    · intro e2 he2 hne
      have he3 : e = e2 := by simpa using he2
      subst he3
      cases e with
      | Fn m =>
        refine ⟨{ c with fn_error := c.fn_error + 1 }, rfl, ?_, ?_, ?_⟩
        · simp [counterSum]
          omega
        · simp [counterOf]
        · intro e3 hk
          cases e3 <;> simp [counterOf, kindIndex] at hk ⊢
      | Term m =>
        refine ⟨{ c with term_count := c.term_count + 1 }, rfl, ?_, ?_, ?_⟩
        · simp [counterSum]
          omega
        · simp [counterOf]
        · intro e3 hk
          cases e3 <;> simp [counterOf, kindIndex] at hk ⊢
      | Put m =>
        refine ⟨{ c with put_count := c.put_count + 1 }, rfl, ?_, ?_, ?_⟩
        · simp [counterSum]
          omega
        · simp [counterOf]
        · intro e3 hk
          cases e3 <;> simp [counterOf, kindIndex] at hk ⊢
      | Io m =>
        refine ⟨{ c with io_count := c.io_count + 1 }, rfl, ?_, ?_, ?_⟩
        · simp [counterSum]
          omega
        · simp [counterOf]
        · intro e3 hk
          cases e3 <;> simp [counterOf, kindIndex] at hk ⊢
      | Agent m =>
        refine ⟨{ c with agent_count := c.agent_count + 1 }, rfl, ?_, ?_, ?_⟩
        · simp [counterSum]
          omega
        · simp [counterOf]
        · intro e3 hk
          cases e3 <;> simp [counterOf, kindIndex] at hk ⊢
      | Stream m =>
        refine ⟨{ c with stream_count := c.stream_count + 1 }, rfl, ?_, ?_, ?_⟩
        · simp [counterSum]
          omega
        · simp [counterOf]
        · intro e3 hk
          cases e3 <;> simp [counterOf, kindIndex] at hk ⊢
      | Extraction =>
        refine ⟨{ c with extraction_count := c.extraction_count + 1 }, rfl, ?_, ?_, ?_⟩
        · simp [counterSum]
          omega
        · simp [counterOf]
        · intro e3 hk
          cases e3 <;> simp [counterOf, kindIndex] at hk ⊢
      | SecurityClaim m => exact absurd rfl (hne m)

/-- C5 (amended): `set_current_signature` installs the signature when the
anchor is empty; a second call leaves the anchor unchanged and reports no
error — the `Result` of `OnceCell::set`, which does carry the rejection, is
discarded by the trailing semicolon, and the function returns unit. It never
overwrites the anchor. -/
theorem c5_signature_anchor :
    ∀ (old s first : SignatureRef),
      set_current_signature none first = some first ∧
      set_current_signature (some old) s = some old ∧
      (onceCellSet (some old) s).snd = Except.error s := by
  intro old s first
  exact ⟨rfl, rfl, rfl⟩

/-- C5 counterexample: installing signature 2 after signature 1 leaves the
anchor at 1 — the claim's "reports an error at install time" is false on the
code: the second install is a silent no-op (`OnceCell::set`'s error is
computed but discarded, and `set_current_signature` returns unit). -/
theorem c5_second_install_counterexample :
    set_current_signature (some 1) 2 = some 1 ∧
    set_current_signature (some 1) 2 ≠ some 2 ∧
    (onceCellSet (some 1) 2).snd = Except.error 2 := by
  exact ⟨rfl, by decide, rfl⟩

end TlsPuffin

namespace TypeHelper

/-- C1 counterexample: the erased callable that `make_dynamic` builds for a
two-argument function, applied to a single (well-typed) argument, panics with
`Missing argument #2 while calling fn_test.` — it crashes instead of
returning a structured `Fn(Impl(...))` error (the older crate's
`DynamicFunction` type has no error channel at all). -/
theorem c1_arity_counterexample :
    makeDynamic2 "fn_test" (OldTypeShape.of RustTy.vecU8) (OldTypeShape.of RustTy.vecU8)
        (OldTypeShape.of RustTy.vecU8) (fun a b => a + b)
        [⟨rustTypeId RustTy.vecU8, 5⟩] =
      DynOutcome.panicked "Missing argument #2 while calling fn_test." := by
  rfl

/-- C1 (amended): the erased callable panics — it does not return a
structured error — with `Missing argument #k while calling name.` when the
argument at position k (k up to the arity) is missing, and with
`Passed argument #k of name did not match the shape ...` when a present
argument's type shape does not match; when the first arity-many arguments are
present and their shapes match it returns the boxed result of the typed
function, silently ignoring any extra arguments beyond the arity (the closure
only ever consults `args.get(0)` and `args.get(1)`), so an over-supplied call
is not an error either. -/
theorem c1_make_dynamic_panics :
    ∀ (name : String) (ts1 ts2 ret : OldTypeShape) (f : Nat → Nat → Nat)
      (x1 x2 w1 w2 : Nat) (extra : List AnyBox),
      makeDynamic2 name ts1 ts2 ret f [] =
        DynOutcome.panicked ("Missing argument #1 while calling " ++ name ++ ".") ∧
      makeDynamic2 name ts1 ts2 ret f [⟨ts1.inner_type_id, x1⟩] =
        DynOutcome.panicked ("Missing argument #2 while calling " ++ name ++ ".") ∧
      makeDynamic2 name ts1 ts2 ret f
          ([⟨ts1.inner_type_id, x1⟩, ⟨ts2.inner_type_id, x2⟩] ++ extra) =
        DynOutcome.value ⟨ret.inner_type_id, f x1 x2⟩ ∧
      (w1 ≠ ts1.inner_type_id →
        makeDynamic2 name ts1 ts2 ret f [⟨w1, x1⟩] =
          DynOutcome.panicked ("Passed argument #1 of " ++ name
            ++ " did not match the shape " ++ oldShapeDisplay name [ts1, ts2] ret
            ++ ". Hashes of passed types are " ++ formatArgsStr [⟨w1, x1⟩] ++ ".")) ∧
      (w2 ≠ ts2.inner_type_id →
        makeDynamic2 name ts1 ts2 ret f [⟨ts1.inner_type_id, x1⟩, ⟨w2, x2⟩] =
          DynOutcome.panicked ("Passed argument #2 of " ++ name
            ++ " did not match the shape " ++ oldShapeDisplay name [ts1, ts2] ret
            ++ ". Hashes of passed types are "
            ++ formatArgsStr [⟨ts1.inner_type_id, x1⟩, ⟨w2, x2⟩] ++ ".")) := by
  intro name ts1 ts2 ret f x1 x2 w1 w2 extra
  refine ⟨rfl, ?_, ?_, ?_, ?_⟩
  · simp [makeDynamic2, downcastRef]
  · simp [makeDynamic2, downcastRef]
  · intro hw
    simp [makeDynamic2, downcastRef, hw]
  · intro hw
    simp [makeDynamic2, downcastRef, hw]

/-- C4: the serde implementations of the older crate are constant stubs
(marked `todo` in the source): re-serializing after a deserialization is
bit-equal only because serialization ignores its input, while deserialization
restores `TypeShape::of::<UnknownType>()` and `op_server_hello`'s dynamic
function whatever was serialized — so type shapes and function symbols are
not restored to equivalents of the originals, evaluated here at
`TypeShape::of::<Vec<u8>>()` and a non-`op_server_hello` function. -/
theorem c4_serialization_stub :
    (∀ t : OldTypeShape,
      serializeTypeShape (deserializeTypeShape (serializeTypeShape t)) =
        serializeTypeShape t) ∧
    (∀ f : DynFunc,
      serializeDynFunc (deserializeDynFunc (serializeDynFunc f)) =
        serializeDynFunc f) ∧
    deserializeTypeShape (serializeTypeShape (OldTypeShape.of RustTy.vecU8)) =
      OldTypeShape.of RustTy.unknownType ∧
    oldTypeShapeEq
      (deserializeTypeShape (serializeTypeShape (OldTypeShape.of RustTy.vecU8)))
      (OldTypeShape.of RustTy.vecU8) = false ∧
    deserializeDynFunc (serializeDynFunc (DynFunc.opOther 0)) ≠ DynFunc.opOther 0 := by
  exact ⟨fun _ => rfl, fun _ => rfl, rfl, by decide, by decide⟩

end TypeHelper

namespace Rustls

/-- C10: `PayloadU8` writes its length as a single byte, so the encode/read
round trip restores every payload of at most 255 bytes; for a payload of 256
bytes the length prefix wraps to 0 modulo 256 and reading the encoding yields
the empty payload instead of the original. -/
theorem c10_payload_u8_roundtrip :
    (∀ v : List Nat, v.length ≤ 255 →
      payloadU8Read (payloadU8Encode v) = some (v, [])) ∧
    payloadU8Read (payloadU8Encode (List.replicate 256 0)) =
      some ([], List.replicate 256 0) ∧
    ([] : List Nat) ≠ List.replicate 256 0 := by
  refine ⟨?_, ?_, ?_⟩
  · intro v hv
    have hmod : v.length % 256 = v.length := Nat.mod_eq_of_lt (by omega)
    simp [payloadU8Read, payloadU8Encode, u8Read, readerSub, hmod]
  · have h1 : (List.replicate 256 (0 : Nat)).length % 256 = 0 := by
      rw [List.length_replicate]
    rw [payloadU8Encode, h1]
    have h2 : u8Read (0 :: List.replicate 256 (0 : Nat)) =
        some (0, List.replicate 256 0) := rfl
    have h3 : readerSub (List.replicate 256 (0 : Nat)) 0 =
        some ([], List.replicate 256 0) := by
      rw [readerSub, if_pos (Nat.zero_le _), List.take_zero, List.drop_zero]
    simp only [payloadU8Read, h2, h3]
  · intro h
    have h2 := congrArg List.length h
    rw [List.length_replicate] at h2
    simp at h2

end Rustls

namespace TlsPuffin

/-- C8 counterexample: `remove_prefix` is not idempotent. On
`"a<b::c<d"` (two separators, so the split is not a pair and the whole
string's module path is stripped) one application yields `"c<d"`, but a
second application yields `"c<>"`. -/
theorem c8_idempotence_counterexample :
    removePfx ("a<b::c<d".toList) = some ("c<d".toList) ∧
    (removePfx ("a<b::c<d".toList)).bind removePfx = some ("c<>".toList) ∧
    "c<>".toList ≠ "c<d".toList := by
  have hs : splitChar ("a<b::c<d".toList) =
      ["a".toList, "b::c".toList, "d".toList] := by decide
  have h1 : removePfx ("a<b::c<d".toList) =
      some (stripColons ("a<b::c<d".toList)) := by
    apply removePfx_default
    intro x y hc
    rw [hs] at hc
    simp at hc
  have h2 : stripColons ("a<b::c<d".toList) = "c<d".toList := by decide
  have hd : ("c<d".toList) = "c".toList ++ '<' :: "d".toList := by decide
  have hinner : removePfx (("d".toList).dropLast) = some ([] : List Char) := by
    have h4 : ("d".toList).dropLast = ([] : List Char) := by decide
    rw [h4, removePfx_of_not_mem [] (by simp)]
    decide
  have h3 : removePfx ("c<d".toList) = some ("c<>".toList) := by
    rw [hd, removePfx_pair_some "c".toList "d".toList [] (by decide) (by decide)
      (by decide) hinner]
    decide
  refine ⟨by rw [h1, h2], ?_, by decide⟩
  rw [h1, h2]
  simpa using h3

/-- C8 (amended): `remove_prefix` is idempotent on every string with at most
one occurrence of the separator — which covers every display name the pretty
printer feeds it — but not on arbitrary strings (see the counterexample with
two separators). The result is stated through `Option`, a missing value
standing for the source's panic on a string whose single separator is final. -/
theorem c8_remove_prefix_idem :
    ∀ s : List Char, s.count '<' ≤ 1 →
      (removePfx s).bind removePfx = removePfx s := by
  intro s hcount
  by_cases hmem : '<' ∈ s
  · have hc1 : s.count '<' = 1 := by
      have h0 : s.count '<' ≠ 0 := fun h0 => (List.count_eq_zero.mp h0) hmem
      omega
    obtain ⟨a, b, hab, ha, hb⟩ := count_one_decomp s hc1
    subst hab
    by_cases hbe : b = []
    · subst hbe
      rw [removePfx_pair_nil a ha]
      rfl
    · have hg : '<' ∉ b.dropLast := fun hx => hb ((List.dropLast_sublist b).subset hx)
      have hgrlt : '<' ∉ stripColons b.dropLast := stripColons_not_mem _ hg
      have hgrcol : rfindColons (stripColons b.dropLast) = none :=
        stripColons_no_colons _
      rw [removePfx_pair_some a b (stripColons b.dropLast) ha hb hbe
        (removePfx_of_not_mem b.dropLast hg)]
      simp only [Option.some_bind]
      have ha2 : '<' ∉ stripColons a := stripColons_not_mem a ha
      have hb2 : '<' ∉ stripColons b.dropLast ++ ['>'] := by
        intro hx
        rcases List.mem_append.mp hx with hx | hx
        · exact hgrlt hx
        · simp at hx
      have hinner2 : removePfx ((stripColons b.dropLast ++ ['>']).dropLast) =
          some (stripColons b.dropLast) := by
        rw [List.dropLast_concat, removePfx_of_not_mem _ hgrlt,
          stripColons_of_none _ hgrcol]
      rw [removePfx_pair_some (stripColons a) (stripColons b.dropLast ++ ['>'])
        (stripColons b.dropLast) ha2 hb2 (by simp) hinner2]
      rw [stripColons_of_none (stripColons a) (stripColons_no_colons a)]
  · rw [removePfx_of_not_mem s hmem]
    simp only [Option.some_bind]
    rw [removePfx_of_not_mem _ (stripColons_not_mem s hmem),
      stripColons_of_none _ (stripColons_no_colons s)]

/-- C8 witness: the amended idempotence applied to the concrete display name
used by the source's own test, which has one separator. -/
theorem c8_idem_witness :
    (removePfx ("test::test::Test<asdf::Asdf>".toList)).bind removePfx =
      removePfx ("test::test::Test<asdf::Asdf>".toList) :=
  c8_remove_prefix_idem ("test::test::Test<asdf::Asdf>".toList) (by decide)

end TlsPuffin
